import Mathlib

/-!
Verification of the deterministic core of `fx-release-analyzer.py`.

Python strings are modelled as `List Char` (`Str`), which matches Python's
code-point view of `str`.  Python's `int(...)` parser, `str.split`,
`str.strip`, `in` (substring test) and `str.lower` are given explicit
executable models below.  Python `int` values are modelled as `ℤ`,
Python sets as `Finset`, and Python counting dictionaries as `Multiset`
of the incremented keys (a dictionary from keys to counts, with no
iteration-order guarantee, is exactly a multiset).
-/

namespace FxRelease

/-- Python `str` as a list of code points. -/
abbrev Str := List Char

/-- Embed a Lean string literal as a `Str`. -/
def lit (s : String) : Str := s.data

/-- Python `str.split(sep)` for a one-character separator:
`"".split('.') = ['']`, `"a..b".split('.') = ['a','','b']`. -/
def strSplitOn (sep : Char) : Str → List Str
  | [] => [[]]
  | c :: cs =>
    match strSplitOn sep cs with
    | [] => [[]]
    | t :: ts => if c = sep then [] :: t :: ts else (c :: t) :: ts

/-- Python `str.split(sep, maxsplit)` for a one-character separator:
at most `n` splits, remainder kept whole. -/
def splitLimit (sep : Char) : Nat → Str → List Str
  | _, [] => [[]]
  | n, c :: cs =>
    if c = sep then
      match n with
      | 0 => [c :: cs]
      | m + 1 => [] :: splitLimit sep m cs
    else
      match splitLimit sep n cs with
      | [] => [[c]]
      | t :: ts => (c :: t) :: ts

/-- `needle` is a prefix of `hay` (helper for the substring test). -/
def strLeads : Str → Str → Bool
  | [], _ => true
  | _ :: _, [] => false
  | c :: cs, h :: hs => c = h && strLeads cs hs

/-- Python `needle in hay` (substring test). -/
def strContains (hay needle : Str) : Bool :=
  strLeads needle hay ||
    match hay with
    | [] => false
    | _ :: t => strContains t needle

/-- Python `c in hay` for a single character `c`. -/
def strContainsChar (c : Char) (hay : Str) : Bool := hay.contains c

/-- `needle` occurs as a contiguous substring of `hay` (specification side). -/
def SubstrOf (needle hay : Str) : Prop := ∃ pre suf, hay = pre ++ needle ++ suf

/-- The ASCII whitespace characters stripped by Python's `str.strip()`
(exotic Unicode whitespace is not modelled). -/
def pyIsSpace (c : Char) : Bool :=
  c = ' ' || c = '\t' || c = '\n' || c = '\r' || c = '\x0b' || c = '\x0c'

/-- Python `str.strip()`. -/
def pyStrip (s : Str) : Str :=
  ((s.dropWhile pyIsSpace).reverse.dropWhile pyIsSpace).reverse

/-- Python `str.lower()` (ASCII case mapping). -/
def strLower (s : Str) : Str := s.map Char.toLower

/-- Numeric value of a big-endian string of decimal digit characters. -/
def digitsVal (s : Str) : Nat := s.foldl (fun a c => 10 * a + (c.toNat - 48)) 0

/-- No two consecutive underscores (CPython digit-grouping rule). -/
def noConsecUnderscore : Str → Bool
  | c1 :: c2 :: rest => !(c1 = '_' && c2 = '_') && noConsecUnderscore (c2 :: rest)
  | _ => true

/-- An unsigned CPython decimal integer literal: nonempty digits, with single
underscores allowed between digits.  Returns its value. -/
def pyDigits? (s : Str) : Option Nat :=
  if s ≠ [] ∧ s.head? ≠ some '_' ∧ s.getLast? ≠ some '_' ∧
      noConsecUnderscore s = true ∧ s.all (fun c => c.isDigit || c = '_') = true then
    some (digitsVal (s.filter Char.isDigit))
  else none

/-- CPython `int(s)` for `str` arguments: surrounding ASCII whitespace is
stripped, then an optional sign followed by digits (with underscore
grouping).  `none` models a raised `ValueError`. -/
def pyInt? (s : Str) : Option Int :=
  let t := pyStrip s
  if t.head? = some '-' then (pyDigits? t.tail).map (fun n => -(n : Int))
  else if t.head? = some '+' then (pyDigits? t.tail).map (fun n => (n : Int))
  else (pyDigits? t).map (fun n => (n : Int))

/-- Fuel-driven digit accumulation for `natToStr` (kernel-reducible). -/
def natToStrGo : Nat → Nat → Str → Str
  | 0, _, acc => acc
  | f + 1, n, acc =>
    if n = 0 then acc else natToStrGo f (n / 10) (Nat.digitChar (n % 10) :: acc)

/-- Decimal rendering of a natural number (Python `str(n)` for `n ≥ 0`). -/
def natToStr (n : Nat) : Str :=
  if n = 0 then ['0'] else natToStrGo n n []

/-- Decimal rendering of an integer (Python `str(i)`). -/
def intToStr (i : Int) : Str :=
  if i < 0 then '-' :: natToStr i.natAbs else natToStr i.natAbs

/-- Join components with `'.'` (used to state properties of version
strings with a given list of components). -/
def joinDots : List Str → Str
  | [] => []
  | [x] => x
  | x :: y :: t => x ++ '.' :: joinDots (y :: t)

/-! ## `FirefoxReleaseInfo.get_release_tags` (release-boundary resolution)

The subprocess obtaining the tag list is out of scope; the tag universe is a
parameter.  `ResolveErr.invalidVersion` models the `ValueError` raised by
`int(...)` on a non-numeric component; `ResolveErr.unresolvableVersion`
models `raise ValueError("Could not find release tag ...")`. -/

inductive ResolveErr where
  | invalidVersion
  | unresolvableVersion
deriving DecidableEq, Repr

/-- Equality of `Except` results is decidable (needed to evaluate the
resolver on concrete inputs). -/
instance exceptDecEq {ε α : Type} [DecidableEq ε] [DecidableEq α] :
    DecidableEq (Except ε α)
  | .ok a, .ok b =>
    if h : a = b then .isTrue (by rw [h]) else .isFalse (by simp [h])
  | .error a, .error b =>
    if h : a = b then .isTrue (by rw [h]) else .isFalse (by simp [h])
  | .ok _, .error _ => .isFalse (by simp)
  | .error _, .ok _ => .isFalse (by simp)

/-- Python `int(s)`, with a raised `ValueError` as `invalidVersion`. -/
def pyIntE (s : Str) : Except ResolveErr Int :=
  match pyInt? s with
  | some n => .ok n
  | none => .error .invalidVersion

/-- Lines 57-80 of the source: split the version on `.` and compute
`(target_tag, prev_version)`.  Three-or-more parts: point release, no
numeric parsing.  Two parts: `int` is applied to `major` when `minor` is
the string `"0"`, and to `minor` otherwise.  One part: `int` on the whole
version. -/
def versionInfo (version : Str) : Except ResolveErr (Str × Str) :=
  match strSplitOn '.' version with
  | major :: minor :: patch :: _ =>
    .ok (lit "FIREFOX_" ++ major ++ lit "_" ++ minor ++ lit "_" ++ patch ++ lit "_RELEASE",
         major ++ '.' :: minor)
  | [major, minor] =>
    let target_tag := lit "FIREFOX_" ++ major ++ lit "_" ++ minor ++ lit "_RELEASE"
    if minor = lit "0" then do
      let mj ← pyIntE major
      .ok (target_tag, intToStr (mj - 1) ++ lit ".0")
    else do
      let mn ← pyIntE minor
      .ok (target_tag, major ++ '.' :: intToStr (mn - 1))
  | [_] => do
    let mj ← pyIntE version
    .ok (lit "FIREFOX_" ++ version ++ lit "_0_RELEASE", intToStr (mj - 1) ++ lit ".0")
  | [] => .error .invalidVersion

/-- Lines 96-104 of the source: exact tag patterns tried for the previous
version (two-part pattern list, or three-part then two-part). -/
def prevPatterns (prev_version : Str) : List Str :=
  match strSplitOn '.' prev_version with
  | [a, b] => [lit "FIREFOX_" ++ a ++ lit "_" ++ b ++ lit "_RELEASE"]
  | a :: b :: c :: _ =>
    [lit "FIREFOX_" ++ a ++ lit "_" ++ b ++ lit "_" ++ c ++ lit "_RELEASE",
     lit "FIREFOX_" ++ a ++ lit "_" ++ b ++ lit "_RELEASE"]
  | _ => []

/-- Lines 106-113: first pattern, first tag, exact equality. -/
def findStartTag (tags : List Str) (prev_version : Str) : Option Str :=
  (prevPatterns prev_version).findSome? (fun pat => tags.find? (fun tag => tag = pat))

/-- `FirefoxReleaseInfo.get_release_tags`, with the tag universe passed in.
Returns `(start_tag?, end_tag)`; a missing start tag is the time-window
fallback `(None, end_tag)`, not an error. -/
def get_release_tags (tags : List Str) (version : Str) :
    Except ResolveErr (Option Str × Str) :=
  match versionInfo version with
  | .error e => .error e
  | .ok (target_tag, prev_version) =>
    match tags.find? (fun tag => strContains tag target_tag) with
    | none => .error .unresolvableVersion
    | some end_tag => .ok (findStartTag tags prev_version, end_tag)

/-! ## `GitAnalyzer._extract_bug_ids`

The three `re.findall` pattern families are modelled by explicit scanners:
leftmost match, greedy `\d+`/`\d{6,}`, non-overlapping continuation after
each match — exactly the semantics of `re.findall` for these patterns. -/

/-- Match `[Bb]ug (\d+)` at the start of the string: returns the digit
group and the remainder after the match. -/
def matchBugAt (s : Str) : Option (Str × Str) :=
  match s with
  | c0 :: c1 :: c2 :: c3 :: rest =>
    if (c0 = 'B' ∨ c0 = 'b') ∧ c1 = 'u' ∧ c2 = 'g' ∧ c3 = ' ' then
      let ds := rest.takeWhile Char.isDigit
      if ds = [] then none else some (ds, rest.dropWhile Char.isDigit)
    else none
  | _ => none

/-- Match `#(\d+)` at the start of the string. -/
def matchHashAt (s : Str) : Option (Str × Str) :=
  match s with
  | c0 :: rest =>
    if c0 = '#' then
      let ds := rest.takeWhile Char.isDigit
      if ds = [] then none else some (ds, rest.dropWhile Char.isDigit)
    else none
  | [] => none

/-- Match `(\d{6,})` at the start of the string (greedy digit run of
length at least 6). -/
def matchNumAt (s : Str) : Option (Str × Str) :=
  let ds := s.takeWhile Char.isDigit
  if 6 ≤ ds.length then some (ds, s.dropWhile Char.isDigit) else none

/-- `re.findall` driver: attempt a match at each position, left to right;
on success emit the group and continue after the match (non-overlapping),
otherwise advance one position.  Every step strictly shrinks the string
(a successful match consumes at least one character), so `fuel = length`
never runs out when entered through the wrappers below. -/
def findallGo (matchAt : Str → Option (Str × Str)) : Nat → Str → List Str
  | 0, _ => []
  | _, [] => []
  | fuel + 1, c :: cs =>
    match matchAt (c :: cs) with
    | some (ds, rest) => ds :: findallGo matchAt fuel rest
    | none => findallGo matchAt fuel cs

/-- `re.findall(r'[Bb]ug (\d+)', s)`. -/
def scanBug (s : Str) : List Str := findallGo matchBugAt s.length s

/-- `re.findall(r'#(\d+)', s)`. -/
def scanHash (s : Str) : List Str := findallGo matchHashAt s.length s

/-- `re.findall(r'(\d{6,})', s)`. -/
def scanNum (s : Str) : List Str := findallGo matchNumAt s.length s

/-- `GitAnalyzer._extract_bug_ids`: for each pattern family in order, for
each match, `int(match)` filtered to the plausible range, then
deduplicated (`list(set(bug_ids))`; the Python list order is unspecified,
so the result is modelled as the `Finset` itself). -/
def extract_bug_ids (message : Str) : Finset Nat :=
  ((scanBug message ++ scanHash message ++ scanNum message).filterMap
    (fun m =>
      match pyInt? m with
      | some bug_id =>
        if 100000 ≤ bug_id ∧ bug_id ≤ 9999999 then some bug_id.toNat else none
      | none => none)).toFinset

/-! ## `GitAnalyzer._parse_git_log` -/

/-- The `Commit` dataclass.  `bug_ids` is `list(set(...))` in Python with
unspecified order, modelled as the `Finset`. -/
structure Commit where
  hash : Str
  author : Str
  date : Str
  message : Str
  files_changed : List Str
  insertions : Int
  deletions : Int
  bug_ids : Finset Nat
deriving DecidableEq

/-- One field of a statistics line: the literal `"-"` counts as `0`
(binary file), anything else goes through `int(...)`. -/
def statVal (s : Str) : Option Int :=
  if s = lit "-" then some 0 else pyInt? s

/-- Lines 336-347: split a line on tabs; with at least three fields,
parse added/removed (a `ValueError` in either, i.e. `none`, means the
line is skipped and the path is not registered). -/
def statLineParse (l : Str) : Option (Int × Int × Str) :=
  match strSplitOn '\t' l with
  | p0 :: p1 :: p2 :: _ =>
    match statVal p0, statVal p1 with
    | some add, some delete => some (add, delete, p2)
    | _, _ => none
  | _ => none

/-- The inner `while` loop (lines 335-348): consume lines containing a
tab into the current record; return the accumulators and the unconsumed
remainder. -/
def consumeStats (ins del : Int) (files : List Str) : List Str → Int × Int × List Str × List Str
  | [] => (ins, del, files, [])
  | l :: rest =>
    if strContainsChar '\t' l then
      match statLineParse l with
      | some (add, delete, filename) =>
        consumeStats (ins + add) (del + delete) (files ++ [filename]) rest
      | none => consumeStats ins del files rest
    else (ins, del, files, l :: rest)

/-- Sum of the added-lines fields over the well-formed statistics lines
of a list (specification side of the accumulation). -/
def statsIns (stats : List Str) : Int :=
  ((stats.filterMap statLineParse).map (fun t => t.1)).sum

/-- Sum of the removed-lines fields over the well-formed statistics
lines of a list. -/
def statsDel (stats : List Str) : Int :=
  ((stats.filterMap statLineParse).map (fun t => t.2.1)).sum

/-- Paths registered by the well-formed statistics lines of a list, in
order. -/
def statsFiles (stats : List Str) : List Str :=
  (stats.filterMap statLineParse).map (fun t => t.2.2)

/-- The outer `while` loop of `_parse_git_log`, fuel-driven: each step
consumes at least the head line, so `fuel = number of lines` never runs
out when entered through `parseLines`. -/
def parseLinesGo : Nat → List Str → List Commit
  | 0, _ => []
  | _, [] => []
  | fuel + 1, l :: rest =>
    if strContainsChar '|' l then
      match splitLimit '|' 3 l with
      | hash_val :: author :: date :: message :: _ =>
        let r := consumeStats 0 0 [] rest
        { hash := hash_val, author := author, date := date, message := message,
          files_changed := r.2.2.1, insertions := r.1, deletions := r.2.1,
          bug_ids := extract_bug_ids message } :: parseLinesGo fuel r.2.2.2
      | _ => parseLinesGo fuel rest
    else parseLinesGo fuel rest

/-- The outer loop entered with sufficient fuel. -/
def parseLines (ls : List Str) : List Commit := parseLinesGo ls.length ls

/-- `GitAnalyzer._parse_git_log`: `output.strip().split('\n')`, then the
line scan. -/
def parse_git_log (output : Str) : List Commit :=
  parseLines (strSplitOn '\n' (pyStrip output))

/-! ## `ClaudeAnalyzer._analyze_commit_patterns` -/

/-- The `stats` dictionary.  The two counting dictionaries are modelled
as multisets of the incremented keys (key count = dictionary value). -/
structure CommitStats where
  total_commits : Nat
  total_files_changed : Nat
  total_insertions : Int
  total_deletions : Int
  contributors : Finset Str
  file_types : Multiset Str
  components : Multiset Str
deriving DecidableEq

/-- `file_path.split('.')[-1].lower()`. -/
def extKey (p : Str) : Str := strLower ((strSplitOn '.' p).getLastD [])

/-- `file_path.split('/')[0]`. -/
def compKey (p : Str) : Str := (strSplitOn '/' p).headD []

/-- The initial `stats` dictionary literal (lines 441-449). -/
def statsInit (commits : List Commit) : CommitStats :=
  { total_commits := commits.length,
    total_files_changed := (commits.map (fun c => c.files_changed.length)).sum,
    total_insertions := (commits.map (fun c => c.insertions)).sum,
    total_deletions := (commits.map (fun c => c.deletions)).sum,
    contributors := (commits.map (fun c => c.author)).toFinset,
    file_types := 0,
    components := 0 }

/-- The loop body for one `file_path` (lines 453-462). -/
def statsStep (s : CommitStats) (p : Str) : CommitStats :=
  { s with
    file_types :=
      if strContainsChar '.' p then extKey p ::ₘ s.file_types else s.file_types,
    components :=
      if strContainsChar '/' p then compKey p ::ₘ s.components else s.components }

/-- `ClaudeAnalyzer._analyze_commit_patterns`. -/
def analyze_commit_patterns (commits : List Commit) : CommitStats :=
  commits.foldl (fun s c => c.files_changed.foldl statsStep s) (statsInit commits)

/-! ## `ClaudeAnalyzer._prioritize_bugs`

The keyword additions accumulate an exact Python `int`, but
`min(len(markdown)/1000, 3)` is computed in IEEE binary64: CPython's
`int / int` produces the correctly rounded double of the exact
quotient, and the final `score += bonus` is one correctly rounded
double addition (when the bonus is the float; when the quotient
exceeds 3 the bonus is the *int* `3` and the score stays an exact
int).  Every double is an exact rational and correct rounding is a
deterministic function on rationals, so the computed score is modelled
as the exact rational value of the Python number the program produces:
`fl64` below is round-to-nearest-even at 53 significand bits (our
values lie well inside the normal range, so neither subnormals nor
overflow arise). -/

/-- Fuel-driven floor of `log₂ n` (kernel-reducible). -/
def natLog2F : Nat → Nat → Nat
  | 0, _ => 0
  | f + 1, n => if n < 2 then 0 else natLog2F f (n / 2) + 1

/-- Floor of `log₂ n` for `1 ≤ n`. -/
def natLog2 (n : Nat) : Nat := natLog2F n n

/-- The binade exponent of a positive rational: the `e` with
`2 ^ e ≤ r < 2 ^ (e + 1)`, located from the bit lengths of numerator
and denominator and corrected by direct comparison. -/
def qExp (r : ℚ) : Int :=
  let e0 : Int := (natLog2 r.num.toNat : Int) - (natLog2 r.den : Int)
  if r < (2 : ℚ) ^ e0 then e0 - 1
  else if (2 : ℚ) ^ (e0 + 1) ≤ r then e0 + 1
  else e0

/-- Round a rational to the nearest integer, ties to even. -/
def roundHalfEven (x : ℚ) : Int :=
  let f := ⌊x⌋
  let frac := x - f
  if frac < 1 / 2 then f
  else if 1 / 2 < frac then f + 1
  else if f % 2 = 0 then f else f + 1

/-- The exact rational value of the IEEE binary64 double nearest to
`r` (round to nearest, ties to even), for nonnegative `r` in the
normal range. -/
def fl64 (r : ℚ) : ℚ :=
  if r ≤ 0 then 0
  else
    let u := (2 : ℚ) ^ (qExp r - 52)
    (roundHalfEven (r / u) : ℚ) * u

/-- A `{'id': ..., 'markdown': ...}` record. -/
structure BugInfo where
  id : Nat
  markdown : Str
deriving DecidableEq

/-- `bug_priority_score` (lines 562-583), on the lowercased markdown,
producing the exact rational value of the Python number the program
computes: the keyword sum is exact `int` arithmetic; the length bonus
is the correctly rounded double of `len/1000` when that does not
exceed 3 (added to the score by one more rounded double addition) and
the exact int `3` otherwise. -/
def bug_priority_score (bug_info : BugInfo) : ℚ :=
  let markdown := strLower bug_info.markdown
  let score : ℚ :=
    (if [lit "security", lit "crash", lit "critical", lit "regression"].any
        (fun word => strContains markdown word) then 10 else 0)
    + (if [lit "performance", lit "memory", lit "leak", lit "startup"].any
        (fun word => strContains markdown word) then 8 else 0)
    + (if [lit "feature", lit "implement", lit "support"].any
        (fun word => strContains markdown word) then 6 else 0)
    + (if [lit "ui", lit "interface", lit "devtools"].any
        (fun word => strContains markdown word) then 4 else 0)
    + (if strContains markdown (lit "severity: critical")
          || strContains markdown (lit "severity: major") then 5 else 0)
  let q := fl64 ((markdown.length : ℚ) / 1000)
  if q ≤ 3 then fl64 (score + q) else score + 3

/-- The specification's score formula read in exact arithmetic
(`+ min(length/1000, 3)` over ℚ).  This is *not* the program's score:
it is the claim-side reading, used to compare against
`bug_priority_score`. -/
def exact_priority_score (bug_info : BugInfo) : ℚ :=
  let markdown := strLower bug_info.markdown
  (if [lit "security", lit "crash", lit "critical", lit "regression"].any
      (fun word => strContains markdown word) then 10 else 0)
  + (if [lit "performance", lit "memory", lit "leak", lit "startup"].any
      (fun word => strContains markdown word) then 8 else 0)
  + (if [lit "feature", lit "implement", lit "support"].any
      (fun word => strContains markdown word) then 6 else 0)
  + (if [lit "ui", lit "interface", lit "devtools"].any
      (fun word => strContains markdown word) then 4 else 0)
  + (if strContains markdown (lit "severity: critical")
        || strContains markdown (lit "severity: major") then 5 else 0)
  + min ((markdown.length : ℚ) / 1000) 3

/-- A record whose lowercased text contains `"ui"` (+4) and has length
1017, so its exact-formula score is `4 + 1017/1000 = 5017/1000` but its
float score is `4 + fl(1.017)` = `5.0169999999999995`. -/
def stabilityBugA : BugInfo := { id := 1, markdown := lit "ui" ++ List.replicate 1015 '.' }

/-- A record whose lowercased text contains `"severity: major"` (+5)
and has length 17, so its exact-formula score is also `5017/1000` but
its float score is `5 + fl(0.017)` = `5.017`, one ulp above
`stabilityBugA`'s. -/
def stabilityBugB : BugInfo := { id := 2, markdown := lit "severity: major.." }

/-- `ClaudeAnalyzer._prioritize_bugs`: Python's `sorted(..., key=...,
reverse=True)` is a stable sort, descending by key; modelled by the
stable `List.mergeSort` with the reversed comparison. -/
def prioritize_bugs (bugs_markdown : List BugInfo) : List BugInfo :=
  bugs_markdown.mergeSort
    (fun a b => bug_priority_score b ≤ bug_priority_score a)

/-! ## General lemmas about the string model -/

theorem strSplitOn_ne_nil (sep : Char) (s : Str) : strSplitOn sep s ≠ [] := by
  cases s with
  | nil => simp [strSplitOn]
  | cons c cs =>
    simp only [strSplitOn]
    match strSplitOn sep cs with
    | [] => simp
    | t :: ts =>
      by_cases h : c = sep <;> simp [h]

theorem strSplitOn_no_sep {sep : Char} {s : Str} (h : sep ∉ s) :
    strSplitOn sep s = [s] := by
  induction s with
  | nil => rfl
  | cons c cs ih =>
    have hc : c ≠ sep := fun he => h (he ▸ List.mem_cons_self c cs)
    have ih2 := ih (fun hm => h (List.mem_cons_of_mem c hm))
    simp only [strSplitOn, ih2]
    simp [hc]

theorem strSplitOn_append {sep : Char} {a : Str} (h : sep ∉ a) (b : Str) :
    strSplitOn sep (a ++ sep :: b) = a :: strSplitOn sep b := by
  induction a with
  | nil =>
    simp only [List.nil_append, strSplitOn]
    match hb : strSplitOn sep b with
    | [] => exact absurd hb (strSplitOn_ne_nil sep b)
    | t :: ts => simp
  | cons c cs ih =>
    have hc : c ≠ sep := fun he => h (he ▸ List.mem_cons_self c cs)
    have ih2 := ih (fun hm => h (List.mem_cons_of_mem c hm))
    simp only [List.cons_append, strSplitOn, List.append_eq]
    rw [ih2]
    simp [hc]

theorem strLeads_iff (needle hay : Str) :
    strLeads needle hay = true ↔ ∃ suf, hay = needle ++ suf := by
  induction needle generalizing hay with
  | nil => simp [strLeads]
  | cons c cs ih =>
    cases hay with
    | nil => simp [strLeads]
    | cons h hs =>
      simp only [strLeads, Bool.and_eq_true, decide_eq_true_eq, ih]
      constructor
      · rintro ⟨rfl, suf, rfl⟩
        exact ⟨suf, rfl⟩
      · rintro ⟨suf, he⟩
        rw [List.cons_append] at he
        cases he
        exact ⟨rfl, suf, rfl⟩

theorem strContains_iff (hay needle : Str) :
    strContains hay needle = true ↔ SubstrOf needle hay := by
  induction hay with
  | nil =>
    simp only [strContains, strLeads_iff, SubstrOf, Bool.or_false]
    constructor
    · rintro ⟨suf, he⟩
      exact ⟨[], suf, he⟩
    · rintro ⟨pre, suf, he⟩
      cases pre with
      | nil => exact ⟨suf, by simpa using he⟩
      | cons p ps => simp at he
  | cons h hs ih =>
    simp only [strContains, Bool.or_eq_true, strLeads_iff, ih, SubstrOf]
    constructor
    · rintro (⟨suf, he⟩ | ⟨pre, suf, he⟩)
      · exact ⟨[], suf, by simpa using he⟩
      · exact ⟨h :: pre, suf, by simp [he]⟩
    · rintro ⟨pre, suf, he⟩
      cases pre with
      | nil => exact Or.inl ⟨suf, by simpa using he⟩
      | cons p ps =>
        simp only [List.cons_append, List.cons.injEq] at he
        exact Or.inr ⟨ps, suf, he.2⟩

theorem dropWhile_of_all_false {p : Char → Bool} {s : Str}
    (h : ∀ c ∈ s, p c = false) : s.dropWhile p = s := by
  cases s with
  | nil => rfl
  | cons c cs => simp [List.dropWhile_cons, h c (List.mem_cons_self c cs)]

theorem pyStrip_of_no_space {s : Str} (h : ∀ c ∈ s, pyIsSpace c = false) :
    pyStrip s = s := by
  unfold pyStrip
  rw [dropWhile_of_all_false h, dropWhile_of_all_false
    (fun c hc => h c (List.mem_reverse.mp hc)), List.reverse_reverse]

/-! ## Lemmas about decimal rendering and `int(...)` parsing -/

theorem digitChar_isDigit {d : Nat} (h : d < 10) :
    (Nat.digitChar d).isDigit = true := by
  interval_cases d <;> decide

theorem digitChar_val {d : Nat} (h : d < 10) :
    (Nat.digitChar d).toNat - 48 = d := by
  interval_cases d <;> decide

theorem natToStrGo_eq (fuel : Nat) :
    ∀ n acc, n ≤ fuel →
      natToStrGo fuel n acc = ((Nat.digits 10 n).reverse.map Nat.digitChar) ++ acc := by
  induction fuel with
  | zero =>
    intro n acc hn
    have : n = 0 := Nat.le_zero.mp hn
    subst this
    simp [natToStrGo]
  | succ f ih =>
    intro n acc hn
    by_cases h0 : n = 0
    · subst h0
      simp [natToStrGo]
    · have hpos : 0 < n := Nat.pos_of_ne_zero h0
      have hdiv : n / 10 ≤ f := by
        have := Nat.div_lt_self hpos (by norm_num : 1 < 10)
        omega
      simp only [natToStrGo, if_neg h0]
      rw [ih (n / 10) _ hdiv, Nat.digits_def' (by norm_num : 1 < 10) hpos]
      simp [List.append_assoc]

theorem natToStr_eq (n : Nat) (h : n ≠ 0) :
    natToStr n = (Nat.digits 10 n).reverse.map Nat.digitChar := by
  simp only [natToStr, if_neg h]
  rw [natToStrGo_eq n n [] (le_refl n), List.append_nil]

theorem natToStr_all_digit {n : Nat} : ∀ c ∈ natToStr n, c.isDigit = true := by
  by_cases h : n = 0
  · subst h
    intro c hc
    rw [show natToStr 0 = ['0'] from rfl, List.mem_singleton] at hc
    subst hc
    decide
  · rw [natToStr_eq n h]
    intro c hc
    simp only [List.mem_map, List.mem_reverse] at hc
    obtain ⟨d, hd, rfl⟩ := hc
    exact digitChar_isDigit (Nat.digits_lt_base (by norm_num) hd)

theorem natToStr_ne_nil (n : Nat) : natToStr n ≠ [] := by
  by_cases h : n = 0
  · subst h
    simp [natToStr]
  · rw [natToStr_eq n h]
    simp [Nat.digits_ne_nil_iff_ne_zero.mpr h]

theorem foldl_digitChar_val (l : List Nat) (h : ∀ d ∈ l, d < 10) :
    ∀ a, List.foldl (fun x c => 10 * x + (c.toNat - 48)) a
        (l.reverse.map Nat.digitChar) = a * 10 ^ l.length + Nat.ofDigits 10 l := by
  induction l with
  | nil => intro a; simp [Nat.ofDigits]
  | cons d t ih =>
    intro a
    have hd : d < 10 := h d (List.mem_cons_self d t)
    have ht : ∀ x ∈ t, x < 10 := fun x hx => h x (List.mem_cons_of_mem d hx)
    rw [List.reverse_cons, List.map_append, List.foldl_append, ih ht a]
    simp only [List.map_cons, List.map_nil, List.foldl_cons, List.foldl_nil,
      digitChar_val hd, Nat.ofDigits_cons, List.length_cons]
    ring

theorem digitsVal_natToStr (n : Nat) : digitsVal (natToStr n) = n := by
  by_cases h : n = 0
  · subst h
    decide
  · rw [natToStr_eq n h]
    unfold digitsVal
    rw [foldl_digitChar_val (Nat.digits 10 n)
      (fun d hd => Nat.digits_lt_base (by norm_num) hd) 0]
    simp [Nat.ofDigits_digits]

theorem natToStr_eq_zero_iff (n : Nat) : natToStr n = lit "0" ↔ n = 0 := by
  constructor
  · intro h
    have := digitsVal_natToStr n
    rw [h] at this
    simpa using this.symm
  · intro h
    subst h
    rfl

theorem isDigit_not_space {c : Char} (h : c.isDigit = true) : pyIsSpace c = false := by
  by_contra hc
  rw [Bool.not_eq_false] at hc
  simp only [pyIsSpace, Bool.or_eq_true, decide_eq_true_eq] at hc
  rcases hc with ((((rfl | rfl) | rfl) | rfl) | rfl) | rfl <;> exact absurd h (by decide)

theorem noConsec_of_no_underscore :
    ∀ s : Str, (∀ c ∈ s, c ≠ '_') → noConsecUnderscore s = true := by
  intro s
  induction s with
  | nil => intro _; rfl
  | cons c t ih =>
    intro h
    cases t with
    | nil => rfl
    | cons c2 t2 =>
      have hc : c ≠ '_' := h c (List.mem_cons_self _ _)
      simp only [noConsecUnderscore, Bool.and_eq_true]
      refine ⟨by simp [hc], ih (fun x hx => h x (List.mem_cons_of_mem c hx))⟩

theorem pyInt?_natToStr (n : Nat) : pyInt? (natToStr n) = some (n : Int) := by
  have hdig := @natToStr_all_digit n
  have hstrip : pyStrip (natToStr n) = natToStr n :=
    pyStrip_of_no_space (fun c hc => isDigit_not_space (hdig c hc))
  have hne := natToStr_ne_nil n
  have hhead : ∀ x, (natToStr n).head? = some x → x.isDigit = true := by
    intro x hx
    exact hdig x (List.mem_of_mem_head? hx)
  have hne_dash : (natToStr n).head? ≠ some '-' := by
    intro hx
    exact absurd (hhead '-' hx) (by decide)
  have hne_plus : (natToStr n).head? ≠ some '+' := by
    intro hx
    exact absurd (hhead '+' hx) (by decide)
  have hno_us : ∀ c ∈ natToStr n, c ≠ '_' := by
    intro c hc he
    subst he
    exact absurd (hdig '_' hc) (by decide)
  simp only [pyInt?, hstrip, if_neg hne_dash, if_neg hne_plus]
  have hd : pyDigits? (natToStr n) = some n := by
    simp only [pyDigits?]
    rw [if_pos]
    · rw [List.filter_eq_self.mpr hdig, digitsVal_natToStr]
    · refine ⟨hne, ?_, ?_, noConsec_of_no_underscore _ hno_us, ?_⟩
      · intro hx
        exact hno_us '_' (List.mem_of_mem_head? hx) rfl
      · intro hx
        exact hno_us '_' (List.mem_of_mem_getLast? hx) rfl
      · rw [List.all_eq_true]
        intro c hc
        simp [hdig c hc]
  rw [hd]
  rfl

theorem no_dot_natToStr (n : Nat) : '.' ∉ natToStr n := by
  intro h
  exact absurd (natToStr_all_digit '.' h) (by decide)

theorem intToStr_nonneg (n : Nat) : intToStr (n : Int) = natToStr n := by
  simp [intToStr, Int.natAbs_ofNat]

theorem no_dot_intToStr (i : Int) : '.' ∉ intToStr i := by
  unfold intToStr
  by_cases h : i < 0
  · rw [if_pos h]
    intro hm
    rcases List.mem_cons.mp hm with h1 | h2
    · exact absurd h1 (by decide)
    · exact no_dot_natToStr _ h2
  · rw [if_neg h]
    exact no_dot_natToStr _

theorem strSplitOn_joinDots :
    ∀ parts : List Str, parts ≠ [] → (∀ p ∈ parts, '.' ∉ p) →
      strSplitOn '.' (joinDots parts) = parts := by
  intro parts
  induction parts with
  | nil => intro h; exact absurd rfl h
  | cons x t ih =>
    intro _ hnd
    cases t with
    | nil =>
      simp only [joinDots]
      exact strSplitOn_no_sep (hnd x (List.mem_cons_self _ _))
    | cons y t2 =>
      simp only [joinDots]
      rw [strSplitOn_append (hnd x (List.mem_cons_self _ _)),
        ih (by simp) (fun p hp => hnd p (List.mem_cons_of_mem x hp))]

/-! ## Claims about `get_release_tags` -/

/-- C3: for every numeric version string, `get_release_tags` computes the
target tag and previous version as specified: `M.m.p` (with three or more
dot-separated numeric parts) gives target tag `FIREFOX_M_m_p_RELEASE` and
previous version `M.m`; exactly two parts `M.m` gives target tag
`FIREFOX_M_m_RELEASE` and previous version `(M-1).0` when `m` is `0`,
otherwise `M.(m-1)`; one part `M` gives target tag `FIREFOX_M_0_RELEASE`
and previous version `(M-1).0`. -/
theorem resolve_version_forms :
    (∀ (M m p : Nat) (rest : List Nat),
      versionInfo (joinDots (natToStr M :: natToStr m :: natToStr p :: rest.map natToStr)) =
        .ok (lit "FIREFOX_" ++ natToStr M ++ lit "_" ++ natToStr m ++ lit "_" ++
              natToStr p ++ lit "_RELEASE",
             natToStr M ++ '.' :: natToStr m)) ∧
    (∀ M m : Nat,
      versionInfo (natToStr M ++ '.' :: natToStr m) =
        .ok (lit "FIREFOX_" ++ natToStr M ++ lit "_" ++ natToStr m ++ lit "_RELEASE",
             if m = 0 then intToStr ((M : Int) - 1) ++ lit ".0"
             else natToStr M ++ '.' :: natToStr (m - 1))) ∧
    (∀ M : Nat,
      versionInfo (natToStr M) =
        .ok (lit "FIREFOX_" ++ natToStr M ++ lit "_0_RELEASE",
             intToStr ((M : Int) - 1) ++ lit ".0")) := by
  refine ⟨?_, ?_, ?_⟩
  · intro M m p rest
    have hsplit : strSplitOn '.'
        (joinDots (natToStr M :: natToStr m :: natToStr p :: rest.map natToStr)) =
        natToStr M :: natToStr m :: natToStr p :: rest.map natToStr := by
      refine strSplitOn_joinDots _ (by simp) ?_
      intro q hq
      rcases List.mem_cons.mp hq with rfl | hq2
      · exact no_dot_natToStr M
      rcases List.mem_cons.mp hq2 with rfl | hq3
      · exact no_dot_natToStr m
      rcases List.mem_cons.mp hq3 with rfl | hq4
      · exact no_dot_natToStr p
      · obtain ⟨k, _, rfl⟩ := List.mem_map.mp hq4
        exact no_dot_natToStr k
    simp only [versionInfo]
    rw [hsplit]
  · intro M m
    have hsplit : strSplitOn '.' (natToStr M ++ '.' :: natToStr m) =
        [natToStr M, natToStr m] := by
      rw [strSplitOn_append (no_dot_natToStr M), strSplitOn_no_sep (no_dot_natToStr m)]
    simp only [versionInfo]
    rw [hsplit]
    by_cases hm : m = 0
    · subst hm
      have h0 : natToStr 0 = lit "0" := rfl
      simp [h0, pyIntE, pyInt?_natToStr, Bind.bind, Except.bind]
    · have h0 : natToStr m ≠ lit "0" := fun h => hm ((natToStr_eq_zero_iff m).mp h)
      have hcast : (m : Int) - 1 = ((m - 1 : Nat) : Int) := by omega
      simp [h0, hm, pyIntE, pyInt?_natToStr, Bind.bind, Except.bind, hcast, intToStr_nonneg]
  · intro M
    have hsplit : strSplitOn '.' (natToStr M) = [natToStr M] :=
      strSplitOn_no_sep (no_dot_natToStr M)
    simp only [versionInfo]
    rw [hsplit]
    simp [pyIntE, pyInt?_natToStr, Bind.bind, Except.bind]

/-- C1 counterexample: the version string `"1.2.x"` has a non-numeric
patch token (`int("x")` would raise), yet `get_release_tags` does not
fail with `invalidVersion` — it resolves a boundary, because the
three-part branch performs no numeric parsing at all. -/
theorem resolve_invalid_counterexample :
    pyInt? (lit "x") = none ∧
    get_release_tags [lit "FIREFOX_1_2_x_RELEASE"] (lit "1.2.x") =
      Except.ok (none, lit "FIREFOX_1_2_x_RELEASE") := by decide

/-- C1 (amended): `get_release_tags` fails with `invalidVersion` exactly
when `int(...)` is actually applied to a non-numeric token, namely: a
one-part version whose single token is non-numeric; a two-part version
whose minor is the literal `"0"` and whose major is non-numeric; or a
two-part version whose minor is neither `"0"` nor numeric.  Versions
with three or more parts never raise `invalidVersion`. -/
theorem resolve_invalid_iff (tags : List Str) (version : Str) :
    (get_release_tags tags version = .error .invalidVersion ↔
      versionInfo version = .error .invalidVersion) ∧
    (versionInfo version = .error .invalidVersion ↔
      (∃ major, strSplitOn '.' version = [major] ∧ pyInt? version = none) ∨
      (∃ major minor, strSplitOn '.' version = [major, minor] ∧
        ((minor = lit "0" ∧ pyInt? major = none) ∨
         (minor ≠ lit "0" ∧ pyInt? minor = none)))) := by
  constructor
  · cases h : versionInfo version with
    | error e =>
      simp only [get_release_tags, h]
      cases e <;> simp
    | ok p =>
      obtain ⟨t, pv⟩ := p
      simp only [get_release_tags, h]
      cases hf : tags.find? (fun tag => strContains tag t) <;> simp
  · rcases h : strSplitOn '.' version with _ | ⟨a, _ | ⟨b, _ | ⟨c, t⟩⟩⟩
    · exact absurd h (strSplitOn_ne_nil _ _)
    · simp only [versionInfo, h]
      cases hp : pyInt? version <;>
        simp [pyIntE, hp, Bind.bind, Except.bind, h]
    · simp only [versionInfo, h]
      by_cases hb : b = lit "0"
      · subst hb
        cases hp : pyInt? a with
        | none =>
          simp [pyIntE, hp, Bind.bind, Except.bind, h]
          exact ⟨a, lit "0", ⟨rfl, rfl⟩, Or.inl ⟨rfl, hp⟩⟩
        | some n => simp [pyIntE, hp, Bind.bind, Except.bind, h]
      · cases hp : pyInt? b with
        | none =>
          simp [pyIntE, hp, Bind.bind, Except.bind, h, hb]
          exact ⟨a, b, ⟨rfl, rfl⟩, Or.inr ⟨hb, hp⟩⟩
        | some n => simp [pyIntE, hp, Bind.bind, Except.bind, h, hb]
    · simp [versionInfo, h]

/-- `List.find?` returns the element at the first index satisfying the
predicate. -/
theorem find?_eq_of_first {α : Type} (p : α → Bool) :
    ∀ (l : List α) (k : Nat) (hk : k < l.length),
      p (l.get ⟨k, hk⟩) = true →
      (∀ (j : Nat) (hj : j < k), p (l.get ⟨j, Nat.lt_trans hj hk⟩) = false) →
      l.find? p = some (l.get ⟨k, hk⟩) := by
  intro l
  induction l with
  | nil => intro k hk; exact absurd hk (by simp)
  | cons a tl ih =>
    intro k hk hp hfirst
    cases k with
    | zero =>
      simp only [List.get] at hp ⊢
      rw [List.find?_cons_of_pos _ hp]
    | succ k2 =>
      have ha : p a = false := by
        have := hfirst 0 (Nat.succ_pos k2)
        simpa using this
      rw [List.find?_cons_of_neg _ (by simp [ha])]
      have hk2 : k2 < tl.length := by simpa using hk
      have hp2 : p (tl.get ⟨k2, hk2⟩) = true := by simpa using hp
      have hfirst2 : ∀ (j : Nat) (hj : j < k2),
          p (tl.get ⟨j, Nat.lt_trans hj hk2⟩) = false := by
        intro j hj
        have := hfirst (j + 1) (Nat.succ_lt_succ hj)
        simpa using this
      have := ih k2 hk2 hp2 hfirst2
      simpa using this

/-- C2: once the version parses, `get_release_tags` fails with
`unresolvableVersion` if and only if no tag in the universe contains the
target tag as a substring; when a match exists, the end tag is the first
containing tag in the given order, drawn verbatim from the universe, and
a missing previous-version tag is not an error — the result is
`(start_tag?, end_tag)` with whatever the exact start-tag search
produced (possibly `none`). -/
theorem resolve_end_tag_spec (tags : List Str) (version target_tag prev_version : Str)
    (h : versionInfo version = .ok (target_tag, prev_version)) :
    (get_release_tags tags version = .error .unresolvableVersion ↔
      ∀ t ∈ tags, ¬ SubstrOf target_tag t) ∧
    (∀ (k : Nat) (hk : k < tags.length),
      SubstrOf target_tag (tags.get ⟨k, hk⟩) →
      (∀ (j : Nat) (hj : j < k), ¬ SubstrOf target_tag (tags.get ⟨j, Nat.lt_trans hj hk⟩)) →
      tags.get ⟨k, hk⟩ ∈ tags ∧
      get_release_tags tags version =
        .ok (findStartTag tags prev_version, tags.get ⟨k, hk⟩)) := by
  constructor
  · simp only [get_release_tags, h]
    cases hf : tags.find? (fun tag => strContains tag target_tag) with
    | none =>
      apply iff_of_true rfl
      intro t ht hsub
      have := List.find?_eq_none.mp hf t ht
      exact this ((strContains_iff t target_tag).mpr hsub)
    | some e =>
      apply iff_of_false (by simp)
      intro hall
      have he : strContains e target_tag = true := by
        have := List.find?_some hf
        simpa using this
      exact hall e (List.mem_of_find?_eq_some hf) ((strContains_iff e target_tag).mp he)
  · intro k hk hsub hfirst
    refine ⟨List.get_mem tags k hk, ?_⟩
    have hf : tags.find? (fun tag => strContains tag target_tag) =
        some (tags.get ⟨k, hk⟩) := by
      apply find?_eq_of_first
      · exact (strContains_iff _ _).mpr hsub
      · intro j hj
        rw [← Bool.not_eq_true]
        intro hc
        exact hfirst j hj ((strContains_iff _ _).mp hc)
    simp only [get_release_tags, h, hf]

/-- C2 witness: `131.0` against a universe containing both the end tag and
the previous release tag. -/
theorem resolve_end_tag_witness :
    ((get_release_tags [lit "FIREFOX_131_0_RELEASE", lit "FIREFOX_130_0_RELEASE"]
        (lit "131.0") = .error .unresolvableVersion ↔
      ∀ t ∈ [lit "FIREFOX_131_0_RELEASE", lit "FIREFOX_130_0_RELEASE"],
        ¬ SubstrOf (lit "FIREFOX_131_0_RELEASE") t) ∧
    (∀ (k : Nat) (hk : k < [lit "FIREFOX_131_0_RELEASE", lit "FIREFOX_130_0_RELEASE"].length),
      SubstrOf (lit "FIREFOX_131_0_RELEASE")
        ([lit "FIREFOX_131_0_RELEASE", lit "FIREFOX_130_0_RELEASE"].get ⟨k, hk⟩) →
      (∀ (j : Nat) (hj : j < k), ¬ SubstrOf (lit "FIREFOX_131_0_RELEASE")
        ([lit "FIREFOX_131_0_RELEASE", lit "FIREFOX_130_0_RELEASE"].get
          ⟨j, Nat.lt_trans hj hk⟩)) →
      [lit "FIREFOX_131_0_RELEASE", lit "FIREFOX_130_0_RELEASE"].get ⟨k, hk⟩ ∈
        [lit "FIREFOX_131_0_RELEASE", lit "FIREFOX_130_0_RELEASE"] ∧
      get_release_tags [lit "FIREFOX_131_0_RELEASE", lit "FIREFOX_130_0_RELEASE"]
          (lit "131.0") =
        .ok (findStartTag [lit "FIREFOX_131_0_RELEASE", lit "FIREFOX_130_0_RELEASE"]
              (lit "130.0"),
            [lit "FIREFOX_131_0_RELEASE", lit "FIREFOX_130_0_RELEASE"].get ⟨k, hk⟩))) :=
  resolve_end_tag_spec [lit "FIREFOX_131_0_RELEASE", lit "FIREFOX_130_0_RELEASE"]
    (lit "131.0") (lit "FIREFOX_131_0_RELEASE") (lit "130.0") (by decide)

/-! ## Lemmas about the log parser -/

theorem consumeStats_halt {l : Str} (hl : strContainsChar '\t' l = false)
    (ins del : Int) (files : List Str) (rest : List Str) :
    consumeStats ins del files (l :: rest) = (ins, del, files, l :: rest) := by
  simp [consumeStats, hl]

theorem consumeStats_skip {l : Str} (h1 : strContainsChar '\t' l = true)
    (h2 : statLineParse l = none)
    (ins del : Int) (files : List Str) (rest : List Str) :
    consumeStats ins del files (l :: rest) = consumeStats ins del files rest := by
  simp [consumeStats, h1, h2]

theorem consumeStats_take {l : Str} {av dv : Int} {path : Str}
    (h1 : strContainsChar '\t' l = true)
    (h2 : statLineParse l = some (av, dv, path))
    (ins del : Int) (files : List Str) (rest : List Str) :
    consumeStats ins del files (l :: rest) =
      consumeStats (ins + av) (del + dv) (files ++ [path]) rest := by
  simp [consumeStats, h1, h2]

theorem consumeStats_length_le :
    ∀ (ls : List Str) (ins del : Int) (files : List Str),
      (consumeStats ins del files ls).2.2.2.length ≤ ls.length := by
  intro ls
  induction ls with
  | nil => intro ins del files; simp [consumeStats]
  | cons l rest ih =>
    intro ins del files
    by_cases h : strContainsChar '\t' l = true
    · cases hp : statLineParse l with
      | some t =>
        obtain ⟨av, dv, path⟩ := t
        rw [consumeStats_take h hp]
        exact Nat.le_trans (ih _ _ _) (by simp)
      | none =>
        rw [consumeStats_skip h hp]
        exact Nat.le_trans (ih _ _ _) (by simp)
    · rw [consumeStats_halt (by simpa using h)]

theorem consumeStats_append {stats : List Str}
    (hstats : ∀ s ∈ stats, strContainsChar '\t' s = true) :
    ∀ (tail : List Str) (ins del : Int) (files : List Str),
      consumeStats ins del files (stats ++ tail) =
        consumeStats (ins + statsIns stats) (del + statsDel stats)
          (files ++ statsFiles stats) tail := by
  induction stats with
  | nil =>
    intro tail ins del files
    simp [statsIns, statsDel, statsFiles]
  | cons s t ih =>
    intro tail ins del files
    have hs : strContainsChar '\t' s = true := hstats s (List.mem_cons_self _ _)
    have ht : ∀ x ∈ t, strContainsChar '\t' x = true :=
      fun x hx => hstats x (List.mem_cons_of_mem s hx)
    cases hp : statLineParse s with
    | some v =>
      obtain ⟨av, dv, path⟩ := v
      rw [List.cons_append, consumeStats_take hs hp, ih ht]
      have h1 : ins + av + statsIns t = ins + statsIns (s :: t) := by
        simp [statsIns, List.filterMap_cons, hp]
        ring
      have h2 : del + dv + statsDel t = del + statsDel (s :: t) := by
        simp [statsDel, List.filterMap_cons, hp]
        ring
      have h3 : files ++ [path] ++ statsFiles t = files ++ statsFiles (s :: t) := by
        simp [statsFiles, List.filterMap_cons, hp]
      rw [h1, h2, h3]
    | none =>
      rw [List.cons_append, consumeStats_skip hs hp, ih ht]
      have h1 : statsIns t = statsIns (s :: t) := by
        simp [statsIns, List.filterMap_cons, hp]
      have h2 : statsDel t = statsDel (s :: t) := by
        simp [statsDel, List.filterMap_cons, hp]
      have h3 : statsFiles t = statsFiles (s :: t) := by
        simp [statsFiles, List.filterMap_cons, hp]
      rw [← h1, ← h2, ← h3]

theorem parseLinesGo_fuel (f : Nat) :
    ∀ (g : Nat) (ls : List Str), ls.length ≤ f → ls.length ≤ g →
      parseLinesGo f ls = parseLinesGo g ls := by
  induction f with
  | zero =>
    intro g ls hf _
    have : ls = [] := List.length_eq_zero.mp (Nat.le_zero.mp hf)
    subst this
    cases g <;> rfl
  | succ f2 ih =>
    intro g ls hf hg
    cases ls with
    | nil => cases g <;> rfl
    | cons l rest =>
      cases g with
      | zero => exact absurd hg (by simp)
      | succ g2 =>
        simp only [parseLinesGo]
        by_cases hp : strContainsChar '|' l = true
        · rw [if_pos hp, if_pos hp]
          cases hsp : splitLimit '|' 3 l with
          | nil => exact ih g2 rest (by simpa using hf) (by simpa using hg)
          | cons x0 t0 =>
            cases t0 with
            | nil => exact ih g2 rest (by simpa using hf) (by simpa using hg)
            | cons x1 t1 =>
              cases t1 with
              | nil => exact ih g2 rest (by simpa using hf) (by simpa using hg)
              | cons x2 t2 =>
                cases t2 with
                | nil => exact ih g2 rest (by simpa using hf) (by simpa using hg)
                | cons x3 t3 =>
                  have hlen := consumeStats_length_le rest 0 0 []
                  simp only [List.length_cons] at hf hg
                  rw [ih g2 (consumeStats 0 0 [] rest).2.2.2 (by omega) (by omega)]
        · rw [if_neg hp, if_neg hp]
          exact ih g2 rest (by simpa using hf) (by simpa using hg)

theorem parseLinesGo_eq_parseLines {f : Nat} {ls : List Str} (h : ls.length ≤ f) :
    parseLinesGo f ls = parseLines ls :=
  parseLinesGo_fuel f ls.length ls h (Nat.le_refl _)

theorem parseLines_cons_header {l h0 a0 d0 m0 : Str} {hrest : List Str}
    (hp : strContainsChar '|' l = true)
    (hs : splitLimit '|' 3 l = h0 :: a0 :: d0 :: m0 :: hrest) (rest : List Str) :
    parseLines (l :: rest) =
      { hash := h0, author := a0, date := d0, message := m0,
        files_changed := (consumeStats 0 0 [] rest).2.2.1,
        insertions := (consumeStats 0 0 [] rest).1,
        deletions := (consumeStats 0 0 [] rest).2.1,
        bug_ids := extract_bug_ids m0 } :: parseLines (consumeStats 0 0 [] rest).2.2.2 := by
  show parseLinesGo (l :: rest).length (l :: rest) = _
  simp only [List.length_cons, parseLinesGo, if_pos hp]
  rw [hs]
  rw [parseLinesGo_eq_parseLines (Nat.le_trans (consumeStats_length_le rest 0 0 []) (Nat.le_refl _))]

theorem parseLines_cons_drop_short {l : Str} (rest : List Str)
    (hp : strContainsChar '|' l = true)
    (hshort : (splitLimit '|' 3 l).length < 4) :
    parseLines (l :: rest) = parseLines rest := by
  show parseLinesGo (l :: rest).length (l :: rest) = _
  simp only [List.length_cons, parseLinesGo, if_pos hp]
  rcases hsp : splitLimit '|' 3 l with _ | ⟨x0, _ | ⟨x1, _ | ⟨x2, _ | ⟨x3, t3⟩⟩⟩⟩
  · exact parseLinesGo_eq_parseLines (Nat.le_refl _)
  · exact parseLinesGo_eq_parseLines (Nat.le_refl _)
  · exact parseLinesGo_eq_parseLines (Nat.le_refl _)
  · exact parseLinesGo_eq_parseLines (Nat.le_refl _)
  · rw [hsp] at hshort
    simp at hshort
    omega

theorem parseLines_cons_drop_nonheader {l : Str} (rest : List Str)
    (hp : strContainsChar '|' l = false) :
    parseLines (l :: rest) = parseLines rest := by
  show parseLinesGo (l :: rest).length (l :: rest) = _
  simp only [List.length_cons, parseLinesGo, if_neg (by simp [hp] : ¬ strContainsChar '|' l = true)]
  exact parseLinesGo_eq_parseLines (Nat.le_refl _)

/-- C4 counterexample: in
`"h|a|d|s\n1\t2\tf\nplain\n3\t4\tg"` the line `"3\t4\tg"` is a
well-formed statistics line lying between the record's header line and
the end of input, yet the emitted record accumulates only the first
statistics line (`insertions = 1`, not `1 + 3`; `touchedPaths = ["f"]`,
not `["f", "g"]`): consumption stops at the first non-statistics line,
not at the next header. -/
theorem parse_between_counterexample :
    (statLineParse (lit "3\t4\tg")).isSome = true ∧
    strContainsChar '|' (lit "3\t4\tg") = false ∧
    strContainsChar '|' (lit "plain") = false ∧
    parse_git_log (lit "h|a|d|s\n1\t2\tf\nplain\n3\t4\tg") =
      [{ hash := lit "h", author := lit "a", date := lit "d", message := lit "s",
         files_changed := [lit "f"], insertions := 1, deletions := 2,
         bug_ids := extract_bug_ids (lit "s") }] := by decide

/-- C4 (amended): each emitted record's added/removed lines and touched
paths are accumulated from exactly the statistics lines in the
contiguous run of delimiter-containing lines immediately following its
header line; the run ends at the first line without the statistics
delimiter (which is left for the scan to re-test).  In particular a
header line immediately followed by a delimiter-free line (for example
another header line) yields a record with sums over the empty run:
`addedLines = removedLines = 0` and `touchedPaths = []`. -/
theorem parse_run_accumulation {hline h0 a0 d0 m0 : Str} {hrest : List Str}
    (stats rest2 : List Str)
    (hp : strContainsChar '|' hline = true)
    (hs : splitLimit '|' 3 hline = h0 :: a0 :: d0 :: m0 :: hrest)
    (hstats : ∀ s ∈ stats, strContainsChar '\t' s = true)
    (hrest2 : ∀ l, rest2.head? = some l → strContainsChar '\t' l = false) :
    parseLines (hline :: (stats ++ rest2)) =
      { hash := h0, author := a0, date := d0, message := m0,
        files_changed := statsFiles stats, insertions := statsIns stats,
        deletions := statsDel stats,
        bug_ids := extract_bug_ids m0 } :: parseLines rest2 := by
  have hconsume : consumeStats 0 0 [] (stats ++ rest2) =
      (statsIns stats, statsDel stats, statsFiles stats, rest2) := by
    rw [consumeStats_append hstats]
    cases rest2 with
    | nil => simp [consumeStats]
    | cons l t =>
      rw [consumeStats_halt (hrest2 l rfl)]
      simp
  rw [parseLines_cons_header hp hs, hconsume]

/-- C4 amended-claim witness: a header immediately followed by another
header yields a first record with zero counts and no paths. -/
theorem parse_run_accumulation_witness :
    parseLines [lit "h|a|d|s", lit "x|y|z|w"] =
      { hash := lit "h", author := lit "a", date := lit "d", message := lit "s",
        files_changed := statsFiles [], insertions := statsIns [],
        deletions := statsDel [],
        bug_ids := extract_bug_ids (lit "s") } :: parseLines [lit "x|y|z|w"] :=
  @parse_run_accumulation (lit "h|a|d|s") (lit "h") (lit "a") (lit "d") (lit "s") []
    [] [lit "x|y|z|w"] (by decide) (by decide)
    (by intro s hs; simp at hs)
    (by intro l hl; simp at hl; subst hl; decide)

/-- C5: parsing never fails on any input: a delimiter-containing line
whose statistics shape is malformed (wrong field count, or a
non-numeric, non-placeholder value) is skipped without touching the
current record's accumulators, a line containing the header delimiter
but splitting into fewer than 4 fields is dropped without emitting a
record, and a line with neither shape is likewise dropped.  (The
embedding is a total function: the only Python exception reachable in
`_parse_git_log`, the `ValueError` of `int`, is caught and modelled by
the `none` branch of `statLineParse`.) -/
theorem parse_lenient :
    (∀ (l : Str) (ins del : Int) (files : List Str) (rest : List Str),
      strContainsChar '\t' l = true → statLineParse l = none →
      consumeStats ins del files (l :: rest) = consumeStats ins del files rest) ∧
    (∀ (l : Str) (rest : List Str),
      strContainsChar '|' l = true → (splitLimit '|' 3 l).length < 4 →
      parseLines (l :: rest) = parseLines rest) ∧
    (∀ (l : Str) (rest : List Str),
      strContainsChar '|' l = false →
      parseLines (l :: rest) = parseLines rest) :=
  ⟨fun _l ins del files rest h1 h2 => consumeStats_skip h1 h2 ins del files rest,
   fun _l rest hp hshort => parseLines_cons_drop_short rest hp hshort,
   fun _l rest hp => parseLines_cons_drop_nonheader rest hp⟩

/-- C5 witness: a two-field statistics line is skipped with the
accumulators untouched; a two-field header-like line is dropped; a plain
line is dropped. -/
theorem parse_lenient_witness :
    consumeStats 0 0 [] [lit "1\tonly"] = consumeStats 0 0 [] [] ∧
    parseLines [lit "a|b", lit "x"] = parseLines [lit "x"] ∧
    parseLines [lit "plain"] = parseLines [] :=
  ⟨parse_lenient.1 (lit "1\tonly") 0 0 [] [] (by decide) (by decide),
   parse_lenient.2.1 (lit "a|b") [lit "x"] (by decide) (by decide),
   parse_lenient.2.2 (lit "plain") [] (by decide)⟩

/-- C6: while consuming a record's statistics lines, the first line
without the statistics delimiter ends consumption — it is returned
unconsumed by the inner loop — and the scan re-tests it as a potential
new header line: the parse continues exactly at that line. -/
theorem parse_retests_nonstat {hline h0 a0 d0 m0 : Str} {hrest : List Str}
    (stats : List Str) (l : Str) (rest : List Str)
    (hp : strContainsChar '|' hline = true)
    (hs : splitLimit '|' 3 hline = h0 :: a0 :: d0 :: m0 :: hrest)
    (hstats : ∀ s ∈ stats, strContainsChar '\t' s = true)
    (hl : strContainsChar '\t' l = false) :
    consumeStats 0 0 [] (stats ++ l :: rest) =
      (statsIns stats, statsDel stats, statsFiles stats, l :: rest) ∧
    parseLines (hline :: (stats ++ l :: rest)) =
      { hash := h0, author := a0, date := d0, message := m0,
        files_changed := statsFiles stats, insertions := statsIns stats,
        deletions := statsDel stats,
        bug_ids := extract_bug_ids m0 } :: parseLines (l :: rest) := by
  constructor
  · rw [consumeStats_append hstats, consumeStats_halt hl]
    simp
  · exact parse_run_accumulation stats (l :: rest) hp hs hstats
      (fun x hx => by cases hx; exact hl)

/-- C6 witness: a record whose statistics run is ended by a header-shaped
line; the ending line is left unconsumed and is parsed as the next
record's header. -/
theorem parse_retests_nonstat_witness :
    consumeStats 0 0 [] ([lit "1\t2\tf"] ++ lit "x|y|z|w" :: []) =
      (statsIns [lit "1\t2\tf"], statsDel [lit "1\t2\tf"],
       statsFiles [lit "1\t2\tf"], [lit "x|y|z|w"]) ∧
    parseLines (lit "h|a|d|s" :: ([lit "1\t2\tf"] ++ lit "x|y|z|w" :: [])) =
      { hash := lit "h", author := lit "a", date := lit "d", message := lit "s",
        files_changed := statsFiles [lit "1\t2\tf"],
        insertions := statsIns [lit "1\t2\tf"],
        deletions := statsDel [lit "1\t2\tf"],
        bug_ids := extract_bug_ids (lit "s") } :: parseLines [lit "x|y|z|w"] :=
  @parse_retests_nonstat (lit "h|a|d|s") (lit "h") (lit "a") (lit "d") (lit "s") []
    [lit "1\t2\tf"] (lit "x|y|z|w") [] (by decide) (by decide)
    (by intro s hs; simp at hs; subst hs; decide) (by decide)

/-- C10: only the literal `"-"` in the added or removed field is the
binary-file placeholder contributing `0` while still registering the
path; any other field goes through `int(...)`, and a line whose added or
removed field is neither `"-"` nor numeric is skipped entirely, so its
path is not registered. -/
theorem stat_placeholder_spec :
    (statVal (lit "-") = some 0) ∧
    (∀ s : Str, s ≠ lit "-" → statVal s = pyInt? s) ∧
    (∀ (l b path : Str) (extra : List Str) (dv : Int),
      strSplitOn '\t' l = lit "-" :: b :: path :: extra →
      statVal b = some dv →
      statLineParse l = some (0, dv, path)) ∧
    (∀ (l a b path : Str) (extra : List Str),
      strSplitOn '\t' l = a :: b :: path :: extra →
      ((a ≠ lit "-" ∧ pyInt? a = none) ∨ (b ≠ lit "-" ∧ pyInt? b = none)) →
      statLineParse l = none) ∧
    (∀ (l : Str) (av dv : Int) (path : Str) (ins del : Int)
        (files : List Str) (rest : List Str),
      strContainsChar '\t' l = true → statLineParse l = some (av, dv, path) →
      consumeStats ins del files (l :: rest) =
        consumeStats (ins + av) (del + dv) (files ++ [path]) rest) ∧
    (∀ (l : Str) (ins del : Int) (files : List Str) (rest : List Str),
      strContainsChar '\t' l = true → statLineParse l = none →
      consumeStats ins del files (l :: rest) = consumeStats ins del files rest) := by
  refine ⟨rfl, ?_, ?_, ?_, ?_, ?_⟩
  · intro s hs
    simp [statVal, hs]
  · intro l b path extra dv hsp hb
    simp only [statLineParse, hsp]
    rw [hb]
    rfl
  · intro l a b path extra hsp hbad
    rcases hbad with ⟨ha1, ha2⟩ | ⟨hb1, hb2⟩
    · simp [statLineParse, hsp, statVal, ha1, ha2]
    · have : statVal b = none := by simp [statVal, hb1, hb2]
      cases hva : statVal a <;> simp [statLineParse, hsp, hva, this]
  · intro l av dv path ins del files rest h1 h2
    exact consumeStats_take h1 h2 ins del files rest
  · intro l ins del files rest h1 h2
    exact consumeStats_skip h1 h2 ins del files rest

/-- C10 witness: a dash placeholder line registers its path with zero
added lines; an `"x"` in the added field makes the line vanish without
registering its path. -/
theorem stat_placeholder_witness :
    statLineParse (lit "-\t5\tbin.dat") = some (0, 5, lit "bin.dat") ∧
    statLineParse (lit "x\t5\tskip.dat") = none ∧
    consumeStats 0 0 [] [lit "x\t5\tskip.dat"] = consumeStats 0 0 [] [] ∧
    statVal (lit "7") = pyInt? (lit "7") :=
  ⟨stat_placeholder_spec.2.2.1 (lit "-\t5\tbin.dat") (lit "5") (lit "bin.dat") [] 5
      (by decide) (by decide),
   stat_placeholder_spec.2.2.2.1 (lit "x\t5\tskip.dat") (lit "x") (lit "5")
      (lit "skip.dat") [] (by decide) (Or.inl (by decide)),
   stat_placeholder_spec.2.2.2.2.2 (lit "x\t5\tskip.dat") 0 0 [] []
      (by decide) (by decide),
   stat_placeholder_spec.2.1 (lit "7") (by decide)⟩

/-! ## Claims about the bug-id extractor -/

/-- C7: for every text, the extractor returns the deduplicated set of
integers obtained by unioning the matches of the three pattern families
and filtering to the inclusive range `[100000, 9999999]`; in particular
`extract("Bug 1234567 and bug 42") = {1234567}` (42 excluded by the
range filter) and `extract("see #1500000 and 1500000") = {1500000}`
(deduplicated across families). -/
theorem extract_bug_ids_spec :
    (∀ (text : Str) (n : Nat), n ∈ extract_bug_ids text ↔
      ((∃ m ∈ scanBug text, pyInt? m = some (n : Int)) ∨
       (∃ m ∈ scanHash text, pyInt? m = some (n : Int)) ∨
       (∃ m ∈ scanNum text, pyInt? m = some (n : Int))) ∧
      100000 ≤ n ∧ n ≤ 9999999) ∧
    extract_bug_ids (lit "Bug 1234567 and bug 42") = {1234567} ∧
    extract_bug_ids (lit "see #1500000 and 1500000") = {1500000} := by
  refine ⟨?_, by decide, by decide⟩
  intro text n
  simp only [extract_bug_ids, List.mem_toFinset, List.mem_filterMap, List.mem_append]
  constructor
  · rintro ⟨m, hm, hf⟩
    cases hp : pyInt? m with
    | none =>
      rw [hp] at hf
      exact absurd hf (by simp)
    | some k =>
      rw [hp] at hf
      have hf2 : (if 100000 ≤ k ∧ k ≤ 9999999 then some k.toNat else none) = some n := hf
      by_cases hr : 100000 ≤ k ∧ k ≤ 9999999
      · rw [if_pos hr] at hf2
        have hkn : k.toNat = n := by simpa using hf2
        have hk : k = (n : Int) := by omega
        subst hk
        refine ⟨?_, by omega, by omega⟩
        rcases hm with (h1 | h2) | h3
        · exact Or.inl ⟨m, h1, hp⟩
        · exact Or.inr (Or.inl ⟨m, h2, hp⟩)
        · exact Or.inr (Or.inr ⟨m, h3, hp⟩)
      · rw [if_neg hr] at hf2
        exact absurd hf2 (by simp)
  · rintro ⟨hor, hlo, hhi⟩
    have hval : ∀ m : Str, pyInt? m = some (n : Int) →
        (match pyInt? m with
         | some bug_id =>
           if 100000 ≤ bug_id ∧ bug_id ≤ 9999999 then some bug_id.toNat else none
         | none => none) = some n := by
      intro m hp
      rw [hp]
      have hr : 100000 ≤ (n : Int) ∧ (n : Int) ≤ 9999999 := by omega
      have : (if 100000 ≤ (n : Int) ∧ (n : Int) ≤ 9999999
          then some (n : Int).toNat else none) = some n := by
        rw [if_pos hr]
        simp
      exact this
    rcases hor with ⟨m, hm, hp⟩ | ⟨m, hm, hp⟩ | ⟨m, hm, hp⟩
    · exact ⟨m, Or.inl (Or.inl hm), hval m hp⟩
    · exact ⟨m, Or.inl (Or.inr hm), hval m hp⟩
    · exact ⟨m, Or.inr hm, hval m hp⟩

/-! ## Claims about the bug prioritizer -/

theorem strContains_chars {hay needle : Str} (h : strContains hay needle = true) :
    ∀ c ∈ needle, c ∈ hay := by
  rw [strContains_iff] at h
  obtain ⟨pre, suf, rfl⟩ := h
  intro c hc
  simp [hc]

set_option maxRecDepth 4000 in
/-- C8 counterexample: two records whose scores under the claim's exact
formula are both `5017/1000` — `"ui"` plus 1015 dots (keyword sum 4,
length 1017) and `"severity: major.."` (keyword sum 5, length 17) — are
*not* kept in input order by `_prioritize_bugs`: the program computes
the length bonus in IEEE binary64, where `4 + fl(1017/1000)` and
`5 + fl(17/1000)` land on adjacent doubles (`5.0169999999999995` vs
`5.017`), so `sorted` orders the pair by that one-ulp gap instead of
by input position. -/
theorem prioritize_stability_counterexample :
    exact_priority_score stabilityBugA = exact_priority_score stabilityBugB ∧
    bug_priority_score stabilityBugA = 5648639832629444 / 2 ^ 50 ∧
    bug_priority_score stabilityBugB = 5648639832629445 / 2 ^ 50 ∧
    prioritize_bugs [stabilityBugA, stabilityBugB] =
      [stabilityBugB, stabilityBugA] := by
  have hmdA : strLower stabilityBugA.markdown = lit "ui" ++ List.replicate 1015 '.' := by
    have h1 : List.map Char.toLower (lit "ui") = lit "ui" := by decide
    have h2 : Char.toLower '.' = '.' := by decide
    show List.map Char.toLower (lit "ui" ++ List.replicate 1015 '.') = _
    rw [List.map_append, h1, List.map_replicate, h2]
  have hnotin : ∀ w : Str, (∃ c, c ∈ w ∧ c ≠ 'u' ∧ c ≠ 'i' ∧ c ≠ '.') →
      strContains (lit "ui" ++ List.replicate 1015 '.') w = false := by
    rintro w ⟨c, hcw, hcu, hci, hcd⟩
    by_contra hc
    rw [Bool.not_eq_false] at hc
    have hmem := strContains_chars hc c hcw
    rcases List.mem_append.mp hmem with h | h
    · have h2 : c ∈ (['u', 'i'] : List Char) := h
      rcases List.mem_cons.mp h2 with rfl | h3
      · exact hcu rfl
      · exact hci (List.mem_singleton.mp h3)
    · exact hcd (List.eq_of_mem_replicate h)
  have hui : strContains (lit "ui" ++ List.replicate 1015 '.') (lit "ui") = true :=
    (strContains_iff _ _).mpr ⟨[], List.replicate 1015 '.', rfl⟩
  have hcA1 : ([lit "security", lit "crash", lit "critical", lit "regression"].any
      fun word => strContains (lit "ui" ++ List.replicate 1015 '.') word) = false := by
    simp only [List.any_cons, List.any_nil]
    rw [hnotin (lit "security") ⟨'s', by decide, by decide, by decide, by decide⟩,
      hnotin (lit "crash") ⟨'c', by decide, by decide, by decide, by decide⟩,
      hnotin (lit "critical") ⟨'c', by decide, by decide, by decide, by decide⟩,
      hnotin (lit "regression") ⟨'r', by decide, by decide, by decide, by decide⟩]
    rfl
  have hcA2 : ([lit "performance", lit "memory", lit "leak", lit "startup"].any
      fun word => strContains (lit "ui" ++ List.replicate 1015 '.') word) = false := by
    simp only [List.any_cons, List.any_nil]
    rw [hnotin (lit "performance") ⟨'p', by decide, by decide, by decide, by decide⟩,
      hnotin (lit "memory") ⟨'m', by decide, by decide, by decide, by decide⟩,
      hnotin (lit "leak") ⟨'l', by decide, by decide, by decide, by decide⟩,
      hnotin (lit "startup") ⟨'s', by decide, by decide, by decide, by decide⟩]
    rfl
  have hcA3 : ([lit "feature", lit "implement", lit "support"].any
      fun word => strContains (lit "ui" ++ List.replicate 1015 '.') word) = false := by
    simp only [List.any_cons, List.any_nil]
    rw [hnotin (lit "feature") ⟨'f', by decide, by decide, by decide, by decide⟩,
      hnotin (lit "implement") ⟨'m', by decide, by decide, by decide, by decide⟩,
      hnotin (lit "support") ⟨'s', by decide, by decide, by decide, by decide⟩]
    rfl
  have hcA4 : ([lit "ui", lit "interface", lit "devtools"].any
      fun word => strContains (lit "ui" ++ List.replicate 1015 '.') word) = true := by
    simp only [List.any_cons, List.any_nil]
    rw [hui]
    rfl
  have hcA5 : (strContains (lit "ui" ++ List.replicate 1015 '.') (lit "severity: critical")
      || strContains (lit "ui" ++ List.replicate 1015 '.') (lit "severity: major")) = false := by
    rw [hnotin (lit "severity: critical") ⟨'s', by decide, by decide, by decide, by decide⟩,
      hnotin (lit "severity: major") ⟨'s', by decide, by decide, by decide, by decide⟩]
    rfl
  have hlenA : (lit "ui" ++ List.replicate 1015 '.').length = 1017 := by
    rw [List.length_append, List.length_replicate]
    rfl
  have hexA : exact_priority_score stabilityBugA = 5017 / 1000 := by
    simp only [exact_priority_score, hmdA]
    rw [hcA1, hcA2, hcA3, hcA4, hcA5, hlenA]
    with_unfolding_all rfl
  have hA : bug_priority_score stabilityBugA = 5648639832629444 / 2 ^ 50 := by
    simp only [bug_priority_score, hmdA]
    rw [hcA1, hcA2, hcA3, hcA4, hcA5, hlenA]
    with_unfolding_all rfl
  have hexB : exact_priority_score stabilityBugB = 5017 / 1000 := by
    with_unfolding_all rfl
  have hB : bug_priority_score stabilityBugB = 5648639832629445 / 2 ^ 50 := by
    with_unfolding_all rfl
  have hlt : bug_priority_score stabilityBugA < bug_priority_score stabilityBugB := by
    rw [hA, hB]
    with_unfolding_all rfl
  refine ⟨by rw [hexA, hexB], hA, hB, ?_⟩
  have hle : decide (bug_priority_score stabilityBugB ≤ bug_priority_score stabilityBugA)
      = false := decide_eq_false (not_le.mpr hlt)
  show List.mergeSort [stabilityBugA, stabilityBugB]
      (fun a b => decide (bug_priority_score b ≤ bug_priority_score a)) = _
  rw [List.mergeSort]
  simp only [List.splitInTwo_fst, List.splitInTwo_snd, List.length_cons, List.length_nil]
  norm_num
  simp only [List.mergeSort_singleton, List.cons_merge_cons, hle]
  rw [if_neg (by simp)]
  simp [List.merge]

/-- C8 (amended): `_prioritize_bugs` returns the same records sorted in
descending order of the score the program actually computes — the
keyword sum in exact integer arithmetic plus `min(len/1000, 3)` in IEEE
binary64 arithmetic, modelled exactly by `bug_priority_score` — and the
sort is stable with respect to that computed score: records with
identical computed score keep their relative input order (stated as:
for every score value, filtering the output to that score gives exactly
the input filtered to that score).  Records whose exact-formula scores
coincide but whose float computations differ by rounding are ordered by
the computed values, not by input position. -/
theorem prioritize_bugs_spec (issues : List BugInfo) :
    List.Perm (prioritize_bugs issues) issues ∧
    List.Pairwise (fun a b => bug_priority_score b ≤ bug_priority_score a)
      (prioritize_bugs issues) ∧
    (∀ q : ℚ, (prioritize_bugs issues).filter
        (fun r => decide (bug_priority_score r = q)) =
      issues.filter (fun r => decide (bug_priority_score r = q))) := by
  have htrans : ∀ a b c : BugInfo,
      (fun a b => decide (bug_priority_score b ≤ bug_priority_score a)) a b →
      (fun a b => decide (bug_priority_score b ≤ bug_priority_score a)) b c →
      (fun a b => decide (bug_priority_score b ≤ bug_priority_score a)) a c := by
    intro a b c hab hbc
    simp only [decide_eq_true_eq] at hab hbc ⊢
    exact le_trans hbc hab
  have htotal : ∀ a b : BugInfo,
      ((fun a b => decide (bug_priority_score b ≤ bug_priority_score a)) a b ||
       (fun a b => decide (bug_priority_score b ≤ bug_priority_score a)) b a) := by
    intro a b
    simp only [Bool.or_eq_true, decide_eq_true_eq]
    exact le_total _ _
  refine ⟨List.mergeSort_perm issues _, ?_, ?_⟩
  · have := List.sorted_mergeSort htrans htotal issues
    exact this.imp (fun h => by simpa using h)
  · intro q
    have hall : ∀ r ∈ issues.filter (fun r => decide (bug_priority_score r = q)),
        bug_priority_score r = q := by
      intro r hr
      have := List.of_mem_filter hr
      simpa using this
    have hpair : (issues.filter (fun r => decide (bug_priority_score r = q))).Pairwise
        (fun a b => decide (bug_priority_score b ≤ bug_priority_score a) = true) := by
      apply List.pairwise_of_forall_mem_list
      intro a ha b hb
      simp [hall a ha, hall b hb]
    have hsub : List.Sublist (issues.filter (fun r => decide (bug_priority_score r = q)))
        (prioritize_bugs issues) :=
      List.sublist_mergeSort htrans htotal hpair (List.filter_sublist issues)
    have hsub2 : List.Sublist (issues.filter (fun r => decide (bug_priority_score r = q)))
        ((prioritize_bugs issues).filter (fun r => decide (bug_priority_score r = q))) := by
      have hfix : (issues.filter (fun r => decide (bug_priority_score r = q))).filter
          (fun r => decide (bug_priority_score r = q)) =
          issues.filter (fun r => decide (bug_priority_score r = q)) :=
        List.filter_eq_self.mpr (fun a ha => by simp [hall a ha])
      have := hsub.filter (fun r => decide (bug_priority_score r = q))
      rwa [hfix] at this
    have hperm : List.Perm ((prioritize_bugs issues).filter
        (fun r => decide (bug_priority_score r = q)))
        (issues.filter (fun r => decide (bug_priority_score r = q))) :=
      (List.mergeSort_perm issues _).filter _
    exact (hsub2.eq_of_length hperm.length_eq.symm).symm

/-! ## Claims about the commit-pattern aggregator -/

theorem foldl_statsStep_fields (paths : List Str) :
    ∀ s : CommitStats,
      (paths.foldl statsStep s).total_commits = s.total_commits ∧
      (paths.foldl statsStep s).total_files_changed = s.total_files_changed ∧
      (paths.foldl statsStep s).total_insertions = s.total_insertions ∧
      (paths.foldl statsStep s).total_deletions = s.total_deletions ∧
      (paths.foldl statsStep s).contributors = s.contributors ∧
      (paths.foldl statsStep s).file_types =
        s.file_types + ↑((paths.filter (fun p => strContainsChar '.' p)).map extKey) ∧
      (paths.foldl statsStep s).components =
        s.components + ↑((paths.filter (fun p => strContainsChar '/' p)).map compKey) := by
  induction paths with
  | nil => intro s; simp
  | cons p t ih =>
    intro s
    obtain ⟨h1, h2, h3, h4, h5, h6, h7⟩ := ih (statsStep s p)
    simp only [List.foldl_cons]
    refine ⟨h1, h2, h3, h4, h5, ?_, ?_⟩
    · rw [h6]
      by_cases hd : strContainsChar '.' p = true
      · have hstep : (statsStep s p).file_types = extKey p ::ₘ s.file_types := by
          simp [statsStep, hd]
        have hfil : List.filter (fun x => strContainsChar '.' x) (p :: t) =
            p :: List.filter (fun x => strContainsChar '.' x) t := by
          simp [List.filter_cons, hd]
        rw [hstep, hfil, List.map_cons, ← Multiset.cons_coe, Multiset.cons_add,
          Multiset.add_cons]
      · have hd2 : strContainsChar '.' p = false := by simpa using hd
        have hstep : (statsStep s p).file_types = s.file_types := by
          simp [statsStep, hd2]
        have hfil : List.filter (fun x => strContainsChar '.' x) (p :: t) =
            List.filter (fun x => strContainsChar '.' x) t := by
          simp [List.filter_cons, hd2]
        rw [hstep, hfil]
    · rw [h7]
      by_cases hd : strContainsChar '/' p = true
      · have hstep : (statsStep s p).components = compKey p ::ₘ s.components := by
          simp [statsStep, hd]
        have hfil : List.filter (fun x => strContainsChar '/' x) (p :: t) =
            p :: List.filter (fun x => strContainsChar '/' x) t := by
          simp [List.filter_cons, hd]
        rw [hstep, hfil, List.map_cons, ← Multiset.cons_coe, Multiset.cons_add,
          Multiset.add_cons]
      · have hd2 : strContainsChar '/' p = false := by simpa using hd
        have hstep : (statsStep s p).components = s.components := by
          simp [statsStep, hd2]
        have hfil : List.filter (fun x => strContainsChar '/' x) (p :: t) =
            List.filter (fun x => strContainsChar '/' x) t := by
          simp [List.filter_cons, hd2]
        rw [hstep, hfil]

/-- C9: `_analyze_commit_patterns` is a pure fold: the totals are sums
over records, `contributors` is the set of distinct authors (so the
contributor count is the number of distinct authors), and the two
breakdown dictionaries count, over every touched path, the lowercased
extension key when the path contains `.` and the top-level component key
when the path contains `/`; paths with neither separator contribute to
no bucket, and the empty input yields all-zero stats with empty
mappings. -/
theorem analyze_commit_patterns_spec :
    (∀ commits : List Commit,
      (analyze_commit_patterns commits).total_commits = commits.length ∧
      (analyze_commit_patterns commits).total_files_changed =
        (commits.map (fun c => c.files_changed.length)).sum ∧
      (analyze_commit_patterns commits).total_insertions =
        (commits.map (fun c => c.insertions)).sum ∧
      (analyze_commit_patterns commits).total_deletions =
        (commits.map (fun c => c.deletions)).sum ∧
      (analyze_commit_patterns commits).contributors =
        (commits.map (fun c => c.author)).toFinset ∧
      (analyze_commit_patterns commits).contributors.card =
        (commits.map (fun c => c.author)).dedup.length ∧
      (analyze_commit_patterns commits).file_types =
        ↑(((commits.map (fun c => c.files_changed)).flatten.filter
            (fun p => strContainsChar '.' p)).map extKey) ∧
      (analyze_commit_patterns commits).components =
        ↑(((commits.map (fun c => c.files_changed)).flatten.filter
            (fun p => strContainsChar '/' p)).map compKey)) ∧
    analyze_commit_patterns [] =
      { total_commits := 0, total_files_changed := 0, total_insertions := 0,
        total_deletions := 0, contributors := ∅, file_types := 0,
        components := 0 } := by
  have main : ∀ (cs : List Commit) (s : CommitStats),
      (cs.foldl (fun s c => c.files_changed.foldl statsStep s) s).total_commits =
        s.total_commits ∧
      (cs.foldl (fun s c => c.files_changed.foldl statsStep s) s).total_files_changed =
        s.total_files_changed ∧
      (cs.foldl (fun s c => c.files_changed.foldl statsStep s) s).total_insertions =
        s.total_insertions ∧
      (cs.foldl (fun s c => c.files_changed.foldl statsStep s) s).total_deletions =
        s.total_deletions ∧
      (cs.foldl (fun s c => c.files_changed.foldl statsStep s) s).contributors =
        s.contributors ∧
      (cs.foldl (fun s c => c.files_changed.foldl statsStep s) s).file_types =
        s.file_types + ↑(((cs.map (fun c => c.files_changed)).flatten.filter
          (fun p => strContainsChar '.' p)).map extKey) ∧
      (cs.foldl (fun s c => c.files_changed.foldl statsStep s) s).components =
        s.components + ↑(((cs.map (fun c => c.files_changed)).flatten.filter
          (fun p => strContainsChar '/' p)).map compKey) := by
    intro cs
    induction cs with
    | nil => intro s; simp
    | cons c t ih =>
      intro s
      obtain ⟨g1, g2, g3, g4, g5, g6, g7⟩ := foldl_statsStep_fields c.files_changed s
      obtain ⟨h1, h2, h3, h4, h5, h6, h7⟩ := ih (c.files_changed.foldl statsStep s)
      simp only [List.foldl_cons]
      refine ⟨by rw [h1, g1], by rw [h2, g2], by rw [h3, g3], by rw [h4, g4],
        by rw [h5, g5], ?_, ?_⟩
      · rw [h6, g6, List.map_cons, List.flatten_cons, List.filter_append,
          List.map_append, ← Multiset.coe_add, add_assoc]
      · rw [h7, g7, List.map_cons, List.flatten_cons, List.filter_append,
          List.map_append, ← Multiset.coe_add, add_assoc]
  constructor
  · intro commits
    obtain ⟨h1, h2, h3, h4, h5, h6, h7⟩ := main commits (statsInit commits)
    refine ⟨?_, ?_, ?_, ?_, ?_, ?_, ?_, ?_⟩
    · rw [show analyze_commit_patterns commits =
        commits.foldl (fun s c => c.files_changed.foldl statsStep s)
          (statsInit commits) from rfl, h1]
      rfl
    · exact h2
    · exact h3
    · exact h4
    · exact h5
    · rw [show analyze_commit_patterns commits =
        commits.foldl (fun s c => c.files_changed.foldl statsStep s)
          (statsInit commits) from rfl, h5]
      simp [statsInit, List.card_toFinset]
    · rw [show analyze_commit_patterns commits =
        commits.foldl (fun s c => c.files_changed.foldl statsStep s)
          (statsInit commits) from rfl, h6]
      simp [statsInit]
    · rw [show analyze_commit_patterns commits =
        commits.foldl (fun s c => c.files_changed.foldl statsStep s)
          (statsInit commits) from rfl, h7]
      simp [statsInit]
  · rfl

end FxRelease
